import Mathlib

/-!  Verification of the distributed Jacobi/SOR relaxation core
     (src/jacobi_noft.c) against its natural-language specification.

     The numeric cell type TYPE and the MPI plumbing are modelled over ℝ;
     grid buffers are total maps from linear indices to reals.  All loops
     of the C source are embedded as folds or primitive recursions that
     mirror the source's traversal order and in-place update pattern.  -/

/-- Modelled from the spec: TYPE (declared in jacobi.h, which is not under
src/) is the numeric cell type of grid buffers; a buffer of logical interior
size nb times mb is a row-major array of (nb+2)*(mb+2) cells, modelled as a
total map from linear indices to reals. -/
abbrev Buf : Type := ℕ → ℝ

/-- The relaxation factor computed by SOR1 (src/jacobi_noft.c, line 105):
_W = 2.0 / (1.0 + M_PI / (TYPE)nb). -/
noncomputable def sorW (nb : ℕ) : ℝ := 2 / (1 + Real.pi / (nb : ℝ))

/-- Linear index of interior cell (i, j) (line 112):
pos = 1 + i + (j + 1) * (nb + 2). -/
def cellPos (nb i j : ℕ) : ℕ := 1 + i + (j + 1) * (nb + 2)

/-- The value assigned to nm[pos] by the SOR update (lines 115-118), where
s is the loop state: s.1 is the destination buffer as updated so far (the
west and north reads nm[pos-1], nm[pos-(nb+2)] see it), s.2 the accumulated
norm; the east and south reads come from the source buffer om. -/
noncomputable def sorVal (W : ℝ) (om : Buf) (nb : ℕ) (s : Buf × ℝ) (i j : ℕ) : ℝ :=
  (1 - W) * om (cellPos nb i j) +
    W / 4 * (s.1 (cellPos nb i j - 1) + om (cellPos nb i j + 1) +
      s.1 (cellPos nb i j - (nb + 2)) + om (cellPos nb i j + (nb + 2)))

/-- One execution of the inner-loop body of SOR1 (lines 112-121): write the
relaxed value into the destination buffer at pos and accumulate the squared
difference against om[pos]. -/
noncomputable def sorUpd (W : ℝ) (om : Buf) (nb : ℕ) (s : Buf × ℝ) (i j : ℕ) : Buf × ℝ :=
  (Function.update s.1 (cellPos nb i j) (sorVal W om nb s i j),
   s.2 + (sorVal W om nb s i j - om (cellPos nb i j)) *
     (sorVal W om nb s i j - om (cellPos nb i j)))

/-- The nested loops of SOR1 (lines 109-123): outer loop over rows j, inner
loop over columns i, exactly in source order. -/
noncomputable def sorLoop (W : ℝ) (om : Buf) (nb mb : ℕ) (s0 : Buf × ℝ) : Buf × ℝ :=
  (List.range mb).foldl
    (fun s j => (List.range nb).foldl (fun t i => sorUpd W om nb t i j) s) s0

/-- SOR1 (lines 103-126): starting from norm = 0.0 and the given destination
buffer nm, run the nested loops; the first component is the updated
destination buffer, the second the returned norm. -/
noncomputable def SOR1 (nm om : Buf) (nb mb : ℕ) : Buf × ℝ :=
  sorLoop (sorW nb) om nb mb (nm, 0)

/-- Step-indexed row-major form of the nested loops of SOR1: after k steps
the cells (k' % nb, k' / nb) for k' < k have been processed, in source
order. -/
noncomputable def sorSteps (W : ℝ) (om : Buf) (nb : ℕ) (s0 : Buf × ℝ) : ℕ → Buf × ℝ
  | 0 => s0
  | k + 1 => sorUpd W om nb (sorSteps W om nb s0 k) (k % nb) (k / nb)

/-- Position written at row-major step k of the SOR1 loops. -/
def posAt (nb k : ℕ) : ℕ := cellPos nb (k % nb) (k / nb)

/-- The east-west unpack loop of jacobi_cpu (lines 211-215): writes the
received west column rw into om's west ghost column, index (i+1)*(nb+2), and
the received east column re into om's east ghost column, index
(i+1)*(nb+2)+nb+1, row by row. -/
noncomputable def unpackEW (nb mb : ℕ) (rw re : ℕ → ℝ) (om : Buf) : Buf :=
  (List.range mb).foldl
    (fun m i =>
      Function.update (Function.update m ((i + 1) * (nb + 2)) (rw i))
        ((i + 1) * (nb + 2) + nb + 1) (re i)) om

/-- Initial buffer state of jacobi_cpu (lines 157-158): slot false holds the
caller-supplied matrix (om = matrix), slot true the calloc'd all-zero buffer
nm; the om role starts at slot false. -/
noncomputable def jacobiInit (matrix : Buf) : (Bool → Buf) × Bool :=
  (fun b => if b then (fun _ => 0) else matrix, false)

/-- One iteration of the jacobi_cpu do-while body in the single-process
configuration P = Q = 1 (lines 173-228): with a one-process topology no
receives or sends are posted, so the unpack loop (lines 212-215) copies the
never-written (hence arbitrary) recv_west/recv_east buffers, modelled by the
parameters rw/re, into om's ghost columns; SOR1 then writes the relaxed
interior into nm (line 220); finally the two buffer pointers swap (lines
224-226).  The second state component records which allocation (false =
caller's matrix, true = calloc'd buffer) currently plays the om role. -/
noncomputable def jacobiStep1 (nb mb : ℕ) (rw re : ℕ → ℝ)
    (s : (Bool → Buf) × Bool) : (Bool → Buf) × Bool :=
  (fun b =>
    if b = s.2 then unpackEW nb mb rw re (s.1 s.2)
    else (SOR1 (s.1 (!s.2)) (unpackEW nb mb rw re (s.1 s.2)) nb mb).1,
   !s.2)

/-- n iterations of the single-process jacobi_cpu loop. -/
noncomputable def jacobiRun (nb mb : ℕ) (rw re : ℕ → ℝ) (matrix : Buf) :
    ℕ → (Bool → Buf) × Bool
  | 0 => jacobiInit matrix
  | n + 1 => jacobiStep1 nb mb rw re (jacobiRun nb mb rw re matrix n)

/-- The buffer released on return (lines 233-236): if om is not the caller's
matrix (i.e. the om role sits at slot true) then om is freed, else nm is
freed. -/
def freedSlot (s : (Bool → Buf) × Bool) : Bool :=
  if s.2 = true then s.2 else !s.2

/-- The do-while iteration control of jacobi_cpu (lines 173-228, 245): each
body execution increments iter (line 227) and the loop repeats while
iter < max_iter (line 228); the epsilon comparison at line 228 is commented
out in the source, so the parameter eps never influences the recursion; the
returned value is the final iter (line 245). -/
def loopCount (eps : ℝ) (iter max_iter : ℤ) : ℤ :=
  if iter + 1 < max_iter then loopCount eps (iter + 1) max_iter else iter + 1
termination_by (max_iter - iter).toNat
decreasing_by
  simp_wf
  omega

/-- Direction of a neighbor transfer. -/
inductive Dir : Type
  | north
  | south
  | east
  | west
deriving DecidableEq

/-- Size of this process's north-south communicator, produced by
MPI_Comm_split(comm, rank % P, rank, &ns) at line 165: the number of ranks
in comm sharing the color rank % P. -/
def nsSize (size P rank : ℕ) : ℕ :=
  ((List.range size).filter (fun r => r % P == rank % P)).length

/-- This process's rank inside the north-south communicator: split members
are ordered by the split key (here the rank itself), so it equals the number
of smaller ranks with the same color. -/
def nsRank (P rank : ℕ) : ℕ :=
  ((List.range rank).filter (fun r => r % P == rank % P)).length

/-- Size of the east-west communicator, from MPI_Comm_split(comm, rank / P,
rank, &ew) at line 168. -/
def ewSize (size P rank : ℕ) : ℕ :=
  ((List.range size).filter (fun r => r / P == rank / P)).length

/-- This process's rank inside the east-west communicator. -/
def ewRank (P rank : ℕ) : ℕ :=
  ((List.range rank).filter (fun r => r / P == rank / P)).length

/-- The setup phase of jacobi_cpu before the iteration loop (lines 154-170):
the source contains no validation of size % P (nor any other configuration
check) and no error path at all; it unconditionally queries rank and size
and builds the two communicators. -/
def jacobiSetup (size P rank : ℕ) : Except String (ℕ × ℕ × ℕ × ℕ) :=
  Except.ok (nsRank P rank, nsSize size P rank, ewRank P rank, ewSize size P rank)

/-- The receives posted at the top of each iteration (lines 185-193), in
source order: north unless ns_rank = 0, south unless ns_rank = ns_size - 1,
east unless ew_rank = ew_size - 1, west unless ew_rank = 0. -/
def postedRecvs (size P rank : ℕ) : List Dir :=
  (if nsRank P rank ≠ 0 then [Dir.north] else []) ++
  (if nsRank P rank ≠ nsSize size P rank - 1 then [Dir.south] else []) ++
  (if ewRank P rank ≠ ewSize size P rank - 1 then [Dir.east] else []) ++
  (if ewRank P rank ≠ 0 then [Dir.west] else [])

/-- State of the diff_norm variable across the do-while loop of jacobi_cpu:
dn is the value of diff_norm (none while the variable is still unassigned;
lines 146-147 declare it without an initial value), iter the iteration
counter, and printed the successive values of diff_norm read by the rank-0
printf of lines 174-177, in order. -/
structure LoopSt where
  dn : Option ℝ
  iter : ℕ
  printed : List (Option ℝ)

/-- One do-while body execution as it concerns diff_norm: the printf at line
175 reads sqrt(diff_norm) first (appending the current dn to printed); only
later in the same iteration does line 220 assign diff_norm the result of
SOR1 (reduced in place at line 222), abstracted as norms iter; iter then
increments (line 227). -/
def bodyStep (norms : ℕ → ℝ) (s : LoopSt) : LoopSt :=
  { dn := some (norms s.iter), iter := s.iter + 1, printed := s.printed ++ [s.dn] }

/-- n executions of the do-while body, starting with diff_norm unassigned
and iter = 0 (lines 144-147). -/
def loopRun (norms : ℕ → ℝ) : ℕ → LoopSt
  | 0 => { dn := none, iter := 0, printed := [] }
  | n + 1 => bodyStep norms (loopRun norms n)

/-- The all-zero real sequence; used as concrete contents for the
never-written receive buffers and as a concrete norm history. -/
noncomputable def zf : ℕ → ℝ := fun _ => 0

/-- Concrete 3x3 buffer for an NB = MB = 1 run: the single interior cell
(linear index 4) holds 0, the border holds 10. -/
noncomputable def mini : Buf := fun p => if p = 4 then 0 else 10

/-- The caller-supplied buffer of the C3 scenario (NB = MB = 4): a 6x6 grid
whose 16 interior cells (p % 6 and p / 6 both between 1 and 4) hold 0 and
whose ghost/boundary cells hold 10. -/
noncomputable def c3m : Buf := fun p =>
  if 1 ≤ p % 6 ∧ p % 6 ≤ 4 ∧ 1 ≤ p / 6 ∧ p / 6 ≤ 4 then 0 else 10

theorem sorSteps_inner (W : ℝ) (om : Buf) (nb : ℕ) (s0 : Buf × ℝ) (j : ℕ) :
    ∀ t, t ≤ nb →
      (List.range t).foldl (fun s i => sorUpd W om nb s i j)
          (sorSteps W om nb s0 (nb * j)) =
        sorSteps W om nb s0 (nb * j + t) := by
  intro t
  induction t with
  | zero => intro _; simp
  | succ t ih =>
      intro ht
      have h0 : 0 < nb := Nat.lt_of_lt_of_le (Nat.succ_pos t) ht
      have ht' : t < nb := ht
      rw [List.range_succ, List.foldl_append, ih (Nat.le_of_lt ht')]
      show sorUpd W om nb (sorSteps W om nb s0 (nb * j + t)) t j =
        sorSteps W om nb s0 (nb * j + t + 1)
      have hmod : (nb * j + t) % nb = t := by
        rw [Nat.mul_add_mod, Nat.mod_eq_of_lt ht']
      have hdiv : (nb * j + t) / nb = j := by
        rw [Nat.mul_add_div h0, Nat.div_eq_of_lt ht', Nat.add_zero]
      rw [show sorSteps W om nb s0 (nb * j + t + 1) =
            sorUpd W om nb (sorSteps W om nb s0 (nb * j + t))
              ((nb * j + t) % nb) ((nb * j + t) / nb) from rfl,
          hmod, hdiv]

theorem sorLoop_eq_sorSteps (W : ℝ) (om : Buf) (nb mb : ℕ) (s0 : Buf × ℝ) :
    sorLoop W om nb mb s0 = sorSteps W om nb s0 (nb * mb) := by
  induction mb with
  | zero => simp [sorLoop, sorSteps]
  | succ mb ih =>
      rw [sorLoop, List.range_succ, List.foldl_append]
      rw [sorLoop] at ih
      rw [ih]
      simp only [List.foldl_cons, List.foldl_nil]
      rcases Nat.eq_zero_or_pos nb with h0 | h0
      · subst h0; simp
      · have := sorSteps_inner W om nb s0 mb nb (le_refl nb)
        rw [this, Nat.mul_succ]

theorem sorSteps_preserve (W : ℝ) (om : Buf) (nb : ℕ) (s0 : Buf × ℝ) (p : ℕ) :
    ∀ l k, k ≤ l → (∀ m, k ≤ m → m < l → posAt nb m ≠ p) →
      (sorSteps W om nb s0 l).1 p = (sorSteps W om nb s0 k).1 p := by
  intro l
  induction l with
  | zero =>
      intro k hk _
      rw [Nat.le_zero.mp hk]
  | succ l ih =>
      intro k hk hm
      rcases Nat.eq_or_lt_of_le hk with h | h
      · rw [h]
      · have hk' : k ≤ l := Nat.lt_succ_iff.mp h
        have hne : p ≠ cellPos nb (l % nb) (l / nb) :=
          fun he => hm l hk' (Nat.lt_succ_self l) he.symm
        show (sorUpd W om nb (sorSteps W om nb s0 l) (l % nb) (l / nb)).1 p = _
        rw [sorUpd]
        simp only
        rw [Function.update_noteq hne]
        exact ih k hk' (fun m h1 h2 => hm m h1 (Nat.lt_succ_of_lt h2))

theorem posAt_mono (nb : ℕ) (h0 : 0 < nb) {k l : ℕ} (hkl : k < l) :
    posAt nb k < posAt nb l := by
  have hdle : k / nb ≤ l / nb := Nat.div_le_div_right (Nat.le_of_lt hkl)
  have hk : k % nb < nb := Nat.mod_lt _ h0
  rcases Nat.eq_or_lt_of_le hdle with hq | hq
  · have e1 : nb * (k / nb) + k % nb = k := Nat.div_add_mod k nb
    have e2 : nb * (l / nb) + l % nb = l := Nat.div_add_mod l nb
    rw [← hq] at e2
    have hm : k % nb < l % nb := by
      generalize hg : nb * (k / nb) = q at e1 e2
      omega
    show cellPos nb (k % nb) (k / nb) < cellPos nb (l % nb) (l / nb)
    rw [cellPos, cellPos, hq]
    have hrr : (l / nb + 1) * (nb + 2) = (l / nb + 1) * (nb + 2) := rfl
    generalize (l / nb + 1) * (nb + 2) = r
    omega
  · show cellPos nb (k % nb) (k / nb) < cellPos nb (l % nb) (l / nb)
    rw [cellPos, cellPos]
    have h2 : (k / nb + 2) * (nb + 2) ≤ (l / nb + 1) * (nb + 2) :=
      Nat.mul_le_mul (by omega) (le_refl (nb + 2))
    have h3 : (k / nb + 1) * (nb + 2) + (nb + 2) = (k / nb + 2) * (nb + 2) := by ring
    linarith [Nat.zero_le (l % nb)]

theorem sorSteps_written (W : ℝ) (om : Buf) (nb : ℕ) (s0 : Buf × ℝ) (k : ℕ) :
    (sorSteps W om nb s0 (k + 1)).1 (posAt nb k) =
      sorVal W om nb (sorSteps W om nb s0 k) (k % nb) (k / nb) := by
  show (sorUpd W om nb (sorSteps W om nb s0 k) (k % nb) (k / nb)).1 (posAt nb k) = _
  rw [sorUpd]
  simp only
  rw [posAt, Function.update_same]

theorem posAt_mulAdd (nb i j : ℕ) (hi : i < nb) :
    posAt nb (j * nb + i) = cellPos nb i j := by
  have h0 : 0 < nb := Nat.lt_of_le_of_lt (Nat.zero_le i) hi
  have hmod : (j * nb + i) % nb = i := by
    rw [Nat.mul_comm, Nat.mul_add_mod, Nat.mod_eq_of_lt hi]
  have hdiv : (j * nb + i) / nb = j := by
    rw [Nat.mul_comm, Nat.mul_add_div h0, Nat.div_eq_of_lt hi, Nat.add_zero]
  rw [posAt, hmod, hdiv]

theorem mulAdd_lt (nb mb i j : ℕ) (hi : i < nb) (hj : j < mb) :
    j * nb + i < nb * mb := by
  have h1 : j * nb + i < (j + 1) * nb := by
    have : (j + 1) * nb = j * nb + nb := by ring
    omega
  have h2 : (j + 1) * nb ≤ mb * nb := Nat.mul_le_mul (by omega) (le_refl nb)
  have h3 : mb * nb = nb * mb := Nat.mul_comm mb nb
  omega

/-- The final value of SOR1 at interior cell (i, j) is the value written when
the row-major traversal reaches that cell, computed from the state after the
j*nb + i earlier cells have been processed. -/
theorem SOR1_apply_interior (nm om : Buf) (nb mb i j : ℕ) (hi : i < nb) (hj : j < mb) :
    (SOR1 nm om nb mb).1 (cellPos nb i j) =
      sorVal (sorW nb) om nb (sorSteps (sorW nb) om nb (nm, 0) (j * nb + i)) i j := by
  have h0 : 0 < nb := Nat.lt_of_le_of_lt (Nat.zero_le i) hi
  have hmod : (j * nb + i) % nb = i := by
    rw [Nat.mul_comm, Nat.mul_add_mod, Nat.mod_eq_of_lt hi]
  have hdiv : (j * nb + i) / nb = j := by
    rw [Nat.mul_comm, Nat.mul_add_div h0, Nat.div_eq_of_lt hi, Nat.add_zero]
  rw [SOR1, sorLoop_eq_sorSteps]
  have hpres :
      (sorSteps (sorW nb) om nb (nm, 0) (nb * mb)).1 (cellPos nb i j) =
        (sorSteps (sorW nb) om nb (nm, 0) (j * nb + i + 1)).1 (cellPos nb i j) := by
    apply sorSteps_preserve
    · exact mulAdd_lt nb mb i j hi hj
    · intro m hm1 _
      rw [← posAt_mulAdd nb i j hi]
      exact Nat.ne_of_gt (posAt_mono nb h0 hm1)
  rw [hpres, ← posAt_mulAdd nb i j hi, sorSteps_written, hmod, hdiv]

theorem sorSteps_norm (W : ℝ) (om : Buf) (nb : ℕ) (s0 : Buf × ℝ) (h0 : 0 < nb)
    (N : ℕ) : ∀ n, n ≤ N →
    (sorSteps W om nb s0 n).2 =
      s0.2 + ∑ k ∈ Finset.range n,
        ((sorSteps W om nb s0 N).1 (posAt nb k) - om (posAt nb k)) ^ 2 := by
  intro n
  induction n with
  | zero => intro _; simp; rfl
  | succ n ih =>
      intro hn
      have hn' : n ≤ N := Nat.le_of_succ_le hn
      have hval : (sorSteps W om nb s0 N).1 (posAt nb n) =
          sorVal W om nb (sorSteps W om nb s0 n) (n % nb) (n / nb) := by
        rw [sorSteps_preserve W om nb s0 (posAt nb n) N (n + 1) hn
            (fun m hm1 _ => Nat.ne_of_gt (posAt_mono nb h0 hm1)),
          sorSteps_written]
      show (sorSteps W om nb s0 n).2 +
          (sorVal W om nb (sorSteps W om nb s0 n) (n % nb) (n / nb) -
            om (cellPos nb (n % nb) (n / nb))) *
          (sorVal W om nb (sorSteps W om nb s0 n) (n % nb) (n / nb) -
            om (cellPos nb (n % nb) (n / nb))) = _
      rw [ih hn', Finset.sum_range_succ, ← hval, posAt]
      ring

theorem sum_range_block {M : Type} [AddCommMonoid M] (g : ℕ → M) (a b : ℕ) :
    ∑ k ∈ Finset.range (a + b), g k =
      (∑ k ∈ Finset.range a, g k) + ∑ i ∈ Finset.range b, g (a + i) := by
  induction b with
  | zero => simp
  | succ b ih =>
      rw [Nat.add_succ, Finset.sum_range_succ, ih, Finset.sum_range_succ, add_assoc]

theorem sum_range_grid {M : Type} [AddCommMonoid M] (g : ℕ → M) (nb mb : ℕ) :
    ∑ k ∈ Finset.range (nb * mb), g k =
      ∑ j ∈ Finset.range mb, ∑ i ∈ Finset.range nb, g (j * nb + i) := by
  induction mb with
  | zero => simp
  | succ mb ih =>
      rw [Nat.mul_succ, sum_range_block, ih, Finset.sum_range_succ]
      congr 1
      refine Finset.sum_congr rfl fun i _ => ?_
      rw [Nat.mul_comm]

/-- C1: one SOR1 stencil pass over destination nm and source om, traversed
row-major (outer loop over rows j, inner over columns i), sets nm at linear
index 1+i+(j+1)*(nb+2) to
(1-W)*om[pos] + (W/4)*(nm[pos-1] + om[pos+1] + nm[pos-(nb+2)] + om[pos+(nb+2)])
where W = 2/(1 + pi/nb); the west read nm[pos-1] and north read
nm[pos-(nb+2)] come from the partially updated destination buffer (the state
after the j*nb+i cells preceding (i,j) in row-major order), the east and
south reads from the source buffer. -/
theorem C1_sor_stencil (nm om : Buf) (nb mb i j : ℕ) (hi : i < nb) (hj : j < mb) :
    sorW nb = 2 / (1 + Real.pi / (nb : ℝ)) ∧
    (SOR1 nm om nb mb).1 (1 + i + (j + 1) * (nb + 2)) =
      (1 - sorW nb) * om (1 + i + (j + 1) * (nb + 2)) +
        sorW nb / 4 *
          ((sorSteps (sorW nb) om nb (nm, 0) (j * nb + i)).1
              (1 + i + (j + 1) * (nb + 2) - 1) +
            om (1 + i + (j + 1) * (nb + 2) + 1) +
            (sorSteps (sorW nb) om nb (nm, 0) (j * nb + i)).1
              (1 + i + (j + 1) * (nb + 2) - (nb + 2)) +
            om (1 + i + (j + 1) * (nb + 2) + (nb + 2))) :=
  ⟨rfl, by simpa only [sorVal, cellPos] using SOR1_apply_interior nm om nb mb i j hi hj⟩

/-- Witness for C1 at nb = mb = 1, i = j = 0 on the concrete buffer mini. -/
theorem C1_sor_stencil_witness :
    (0 : ℕ) < 1 ∧ (0 : ℕ) < 1 ∧
    (sorW 1 = 2 / (1 + Real.pi / ((1 : ℕ) : ℝ)) ∧
      (SOR1 mini mini 1 1).1 (1 + 0 + (0 + 1) * (1 + 2)) =
        (1 - sorW 1) * mini (1 + 0 + (0 + 1) * (1 + 2)) +
          sorW 1 / 4 *
            ((sorSteps (sorW 1) mini 1 (mini, 0) (0 * 1 + 0)).1
                (1 + 0 + (0 + 1) * (1 + 2) - 1) +
              mini (1 + 0 + (0 + 1) * (1 + 2) + 1) +
              (sorSteps (sorW 1) mini 1 (mini, 0) (0 * 1 + 0)).1
                (1 + 0 + (0 + 1) * (1 + 2) - (1 + 2)) +
              mini (1 + 0 + (0 + 1) * (1 + 2) + (1 + 2)))) :=
  ⟨by decide, by decide, C1_sor_stencil mini mini 1 1 0 0 (by decide) (by decide)⟩

/-- C2: the value returned by SOR1 equals the sum over exactly the nb*mb
interior cells (ghost cells excluded) of the squared difference between the
new and old value of that cell; in particular it is exactly zero when the
pass leaves every interior cell unchanged. -/
theorem C2_sor_norm (nm om : Buf) (nb mb : ℕ) :
    (SOR1 nm om nb mb).2 =
      (∑ j ∈ Finset.range mb, ∑ i ∈ Finset.range nb,
        ((SOR1 nm om nb mb).1 (cellPos nb i j) - om (cellPos nb i j)) ^ 2) ∧
    ((∀ i j, i < nb → j < mb →
        (SOR1 nm om nb mb).1 (cellPos nb i j) = om (cellPos nb i j)) →
      (SOR1 nm om nb mb).2 = 0) := by
  have hsum : (SOR1 nm om nb mb).2 =
      ∑ j ∈ Finset.range mb, ∑ i ∈ Finset.range nb,
        ((SOR1 nm om nb mb).1 (cellPos nb i j) - om (cellPos nb i j)) ^ 2 := by
    rcases Nat.eq_zero_or_pos nb with h0 | h0
    · subst h0
      rw [SOR1, sorLoop_eq_sorSteps]
      simp [sorSteps]
    · rw [SOR1, sorLoop_eq_sorSteps,
        sorSteps_norm (sorW nb) om nb (nm, 0) h0 (nb * mb) (nb * mb) le_rfl,
        sum_range_grid, show ((nm, (0 : ℝ)).2) = 0 from rfl, zero_add]
      refine Finset.sum_congr rfl fun j hj => Finset.sum_congr rfl fun i hi => ?_
      rw [posAt_mulAdd nb i j (Finset.mem_range.mp hi)]
  refine ⟨hsum, fun h => ?_⟩
  rw [hsum]
  refine Finset.sum_eq_zero fun j hj => Finset.sum_eq_zero fun i hi => ?_
  rw [h i j (Finset.mem_range.mp hi) (Finset.mem_range.mp hj)]
  simp

/-- Witness for C2: on the all-zero field the pass leaves every interior
cell unchanged and the returned norm is exactly zero. -/
theorem C2_sor_norm_witness : (SOR1 zf zf 1 1).2 = 0 := by
  apply (C2_sor_norm zf zf 1 1).2
  intro i j hi hj
  have hi0 : i = 0 := by omega
  have hj0 : j = 0 := by omega
  subst hi0; subst hj0
  rw [SOR1_apply_interior zf zf 1 1 0 0 (by decide) (by decide)]
  simp [sorVal, sorSteps, zf]

/-- C7: for every nb > 0 the stencil's combination weights sum to one:
(1 - W) + 4*(W/4) = 1 with W = 2/(1 + pi/nb), so the update is an affine
combination of the old cell value and its four neighbors. -/
theorem C7_weights_sum_one (nb : ℕ) (h : 0 < nb) :
    (1 - sorW nb) + 4 * (sorW nb / 4) = 1 := by ring

/-- Witness for C7 at nb = 3. -/
theorem C7_weights_sum_one_witness :
    (0 : ℕ) < 3 ∧ (1 - sorW 3) + 4 * (sorW 3 / 4) = 1 :=
  ⟨by decide, C7_weights_sum_one 3 (by decide)⟩

/-- C8: SOR1 writes only the nb*mb interior cells of the destination buffer:
at every linear index that is not an interior cell position — in particular
at every ghost (border) cell — the returned buffer agrees with the input nm;
the source buffer om is never written (in this embedding it is not part of
the mutable state at all, matching the source, where only nm[pos] is ever
assigned). -/
theorem C8_sor_frame (nm om : Buf) (nb mb p : ℕ)
    (hp : ∀ i j, i < nb → j < mb → p ≠ cellPos nb i j) :
    (SOR1 nm om nb mb).1 p = nm p := by
  rw [SOR1, sorLoop_eq_sorSteps]
  apply sorSteps_preserve (sorW nb) om nb (nm, 0) p (nb * mb) 0 (Nat.zero_le _)
  intro m _ hm2
  rcases Nat.eq_zero_or_pos nb with h0 | h0
  · exfalso; subst h0; simp at hm2
  · have hmb : m % nb < nb := Nat.mod_lt _ h0
    have hdb : m / nb < mb := by
      rw [Nat.div_lt_iff_lt_mul h0]
      exact Nat.mul_comm nb mb ▸ hm2
    exact fun he => hp (m % nb) (m / nb) hmb hdb he.symm

/-- Witness for C8: the ghost corner index 0 of the nb = mb = 1 grid is
untouched by the pass. -/
theorem C8_sor_frame_witness : (SOR1 mini mini 1 1).1 0 = mini 0 :=
  C8_sor_frame mini mini 1 1 0 (by intro i j _ _; simp only [cellPos]; omega)

theorem sorW_pos (nb : ℕ) : 0 < sorW nb := by
  rw [sorW]
  apply div_pos (by norm_num)
  have hp : 0 ≤ Real.pi / (nb : ℝ) := div_nonneg Real.pi_pos.le (Nat.cast_nonneg nb)
  linarith

theorem unpack_go_frame (nb : ℕ) (rw re : ℕ → ℝ) (p : ℕ) :
    ∀ (L : List ℕ) (m : Buf),
      (∀ i ∈ L, p ≠ (i + 1) * (nb + 2) ∧ p ≠ (i + 1) * (nb + 2) + nb + 1) →
      (L.foldl (fun m i =>
          Function.update (Function.update m ((i + 1) * (nb + 2)) (rw i))
            ((i + 1) * (nb + 2) + nb + 1) (re i)) m) p = m p := by
  intro L
  induction L with
  | nil => intro m _; rfl
  | cons a L ih =>
      intro m hm
      rw [List.foldl_cons]
      rw [ih _ (fun i hi => hm i (List.mem_cons_of_mem a hi))]
      have h1 := hm a (List.mem_cons_self a L)
      rw [Function.update_noteq h1.2, Function.update_noteq h1.1]

theorem unpackEW_frame (nb mb : ℕ) (rw re : ℕ → ℝ) (om : Buf) (p : ℕ)
    (hp : ∀ i, i < mb → p ≠ (i + 1) * (nb + 2) ∧ p ≠ (i + 1) * (nb + 2) + nb + 1) :
    unpackEW nb mb rw re om p = om p := by
  simp only [unpackEW]
  exact unpack_go_frame nb rw re p (List.range mb) om
    (fun i hi => hp i (List.mem_range.mp hi))

theorem posAt_mod (nb : ℕ) (h0 : 0 < nb) (m : ℕ) :
    posAt nb m % (nb + 2) = 1 + m % nb := by
  rw [posAt, cellPos, Nat.add_mul_mod_self_right]
  exact Nat.mod_eq_of_lt (by have := Nat.mod_lt m h0; omega)

theorem posAt_lb (nb m : ℕ) : nb + 3 ≤ posAt nb m := by
  rw [posAt, cellPos]
  have h1 : 1 * (nb + 2) ≤ (m / nb + 1) * (nb + 2) :=
    Nat.mul_le_mul (Nat.succ_le_succ (Nat.zero_le _)) (le_refl _)
  have h2 : 0 ≤ m % nb := Nat.zero_le _
  linarith

/-- C9: the halo exchange writes ghost cells only of the current source
buffer om: the unpack loop touches nothing but om's two ghost columns (first
conjunct); consequently the ghost cells of the buffer playing the next role
are never refreshed before SOR1 reads them as next[west] (column i = 0) and
next[north] (row j = 0), and on the first iteration — whose destination is
the calloc'd all-zero buffer of line 158 — those reads return 0 regardless
of the caller-supplied boundary values in matrix and of the received ghost
columns rw, re (second and third conjuncts: the value read at the west
ghost of cell (0, j), respectively the north ghost of cell (i, 0), in the
traversal state reaching that cell, is 0). -/
theorem C9_ghost_discipline (nb mb : ℕ) (rw re : ℕ → ℝ) (matrix : Buf) :
    (∀ p, (∀ i, i < mb → p ≠ (i + 1) * (nb + 2) ∧ p ≠ (i + 1) * (nb + 2) + nb + 1) →
        unpackEW nb mb rw re matrix p = matrix p) ∧
    (∀ j, j < mb →
      (sorSteps (sorW nb) (unpackEW nb mb rw re matrix) nb
          ((fun _ => 0), 0) (j * nb + 0)).1 (cellPos nb 0 j - 1) = 0) ∧
    (∀ i, i < nb →
      (sorSteps (sorW nb) (unpackEW nb mb rw re matrix) nb
          ((fun _ => 0), 0) (0 * nb + i)).1 (cellPos nb i 0 - (nb + 2)) = 0) := by
  refine ⟨fun p hp => unpackEW_frame nb mb rw re matrix p hp, ?_, ?_⟩
  · intro j _
    have hcp : cellPos nb 0 j = (j + 1) * (nb + 2) + 1 := by rw [cellPos]; ring
    have hwg : cellPos nb 0 j - 1 = (j + 1) * (nb + 2) := by omega
    rw [hwg]
    rcases Nat.eq_zero_or_pos nb with h0 | h0
    · subst h0
      simp [sorSteps]
    · have hno : ∀ m, 0 ≤ m → m < j * nb + 0 → posAt nb m ≠ (j + 1) * (nb + 2) := by
        intro m _ _ he
        have h1 := posAt_mod nb h0 m
        rw [he, Nat.mul_mod_left] at h1
        omega
      rw [sorSteps_preserve (sorW nb) (unpackEW nb mb rw re matrix) nb
          ((fun _ => 0), 0) ((j + 1) * (nb + 2)) (j * nb + 0) 0 (Nat.zero_le _) hno]
      rfl
  · intro i hi
    have hcp : cellPos nb i 0 = 1 + i + (nb + 2) := by rw [cellPos]; ring
    have hng : cellPos nb i 0 - (nb + 2) = 1 + i := by omega
    rw [hng]
    have hno : ∀ m, 0 ≤ m → m < 0 * nb + i → posAt nb m ≠ 1 + i := by
      intro m _ _ he
      have := posAt_lb nb m
      rw [he] at this
      omega
    rw [sorSteps_preserve (sorW nb) (unpackEW nb mb rw re matrix) nb
        ((fun _ => 0), 0) (1 + i) (0 * nb + i) 0 (Nat.zero_le _) hno]
    rfl

/-- Witness for C9: the first-iteration west ghost read of cell (0, 0) in
the nb = mb = 1 configuration on the concrete buffer mini is 0. -/
theorem C9_ghost_discipline_witness :
    (sorSteps (sorW 1) (unpackEW 1 1 zf zf mini) 1
        ((fun _ => 0), 0) (0 * 1 + 0)).1 (cellPos 1 0 0 - 1) = 0 :=
  (C9_ghost_discipline 1 1 zf zf mini).2.1 0 (by decide)

theorem jacobiRun_one_snd (nb mb : ℕ) (rw re : ℕ → ℝ) (matrix : Buf) :
    (jacobiRun nb mb rw re matrix 1).2 = true := rfl

theorem jacobiRun_one_om (nb mb : ℕ) (rw re : ℕ → ℝ) (matrix : Buf) :
    (jacobiRun nb mb rw re matrix 1).1 false = unpackEW nb mb rw re matrix := rfl

theorem jacobiRun_one_nm (nb mb : ℕ) (rw re : ℕ → ℝ) (matrix : Buf) :
    (jacobiRun nb mb rw re matrix 1).1 true =
      (SOR1 (fun _ => 0) (unpackEW nb mb rw re matrix) nb mb).1 := rfl

theorem c3_cell00_zero (rw re : ℕ → ℝ) :
    (jacobiRun 4 4 rw re c3m 1).1 ((jacobiRun 4 4 rw re c3m 1).2) (cellPos 4 0 0) = 0 := by
  rw [jacobiRun_one_snd, jacobiRun_one_nm]
  rw [SOR1_apply_interior (fun _ => 0) (unpackEW 4 4 rw re c3m) 4 4 0 0
      (by decide) (by decide)]
  have e7 : unpackEW 4 4 rw re c3m (cellPos 4 0 0) = 0 := by
    rw [unpackEW_frame 4 4 rw re c3m _ (by decide)]
    norm_num [c3m, cellPos]
  have e8 : unpackEW 4 4 rw re c3m (cellPos 4 0 0 + 1) = 0 := by
    rw [unpackEW_frame 4 4 rw re c3m _ (by decide)]
    norm_num [c3m, cellPos]
  have e13 : unpackEW 4 4 rw re c3m (cellPos 4 0 0 + (4 + 2)) = 0 := by
    rw [unpackEW_frame 4 4 rw re c3m _ (by decide)]
    norm_num [c3m, cellPos]
  simp only [sorVal, Nat.zero_mul, Nat.zero_add, sorSteps]
  rw [e7, e8, e13]
  norm_num

/-- C3 (amended): in the concrete run NB = MB = 4, P = Q = 1, interior 0,
boundary/ghost 10, max_iter = 1, the new value of interior cell (0,0) after
the single iteration is 0, not the claimed (1-W)*0 + (W/4)*(10+10+10+10):
its west and north reads come from the calloc'd all-zero destination buffer
(not from the caller's boundary) and its east and south neighbors are
interior zeros; so the interior is not uniformly equal to the claimed
value.  This holds whatever values rw, re the never-written receive buffers
contribute to om's ghost columns during the unpack. -/
theorem C3_first_iteration_zero (rw re : ℕ → ℝ) :
    (jacobiRun 4 4 rw re c3m 1).1 ((jacobiRun 4 4 rw re c3m 1).2) (cellPos 4 0 0) = 0 :=
  c3_cell00_zero rw re

/-- C3 is false as stated: in the concrete scenario the value at interior
cell (0,0) after the single iteration differs from the claimed value
(1-W)*0 + (W/4)*(10+10+10+10) with W = 2/(1 + pi/4). -/
theorem C3_counterexample :
    (jacobiRun 4 4 zf zf c3m 1).1 ((jacobiRun 4 4 zf zf c3m 1).2) (cellPos 4 0 0) ≠
      (1 - sorW 4) * 0 + sorW 4 / 4 * (10 + 10 + 10 + 10) := by
  rw [c3_cell00_zero zf zf]
  have h := sorW_pos 4
  intro he
  have h10 : (1 - sorW 4) * 0 + sorW 4 / 4 * (10 + 10 + 10 + 10) = 10 * sorW 4 := by
    ring
  rw [h10] at he
  linarith

theorem jacobiRun_snd (nb mb : ℕ) (rw re : ℕ → ℝ) (matrix : Buf) :
    ∀ n, (jacobiRun nb mb rw re matrix n).2 = decide (n % 2 = 1) := by
  intro n
  induction n with
  | zero => rfl
  | succ n ih =>
      show (!(jacobiRun nb mb rw re matrix n).2) = _
      rw [ih]
      rcases Nat.mod_two_eq_zero_or_one n with h | h <;>
        simp [Nat.add_mod, h]

/-- C4 (amended): when jacobi_cpu returns, the freed buffer is always the
internally allocated (calloc'd) one — if om is not the caller's matrix then
om is freed, else nm is freed, and in both cases the freed allocation is the
internal one — so exactly the caller's matrix allocation survives, for every
number of iterations; the surviving buffer contains the final iterate (the
om contents after the last swap) exactly when the iteration count is even;
after an odd count (e.g. max_iter = 1) the final iterate sits in the freed
internal buffer. -/
theorem C4_buffer_discipline (nb mb : ℕ) (rw re : ℕ → ℝ) (matrix : Buf) (n : ℕ) :
    freedSlot (jacobiRun nb mb rw re matrix n) = true ∧
    (n % 2 = 0 →
      (jacobiRun nb mb rw re matrix n).1 false =
        (jacobiRun nb mb rw re matrix n).1 ((jacobiRun nb mb rw re matrix n).2)) := by
  constructor
  · rcases Bool.eq_false_or_eq_true ((jacobiRun nb mb rw re matrix n).2) with h | h <;>
      simp [freedSlot, h]
  · intro hn
    have h := jacobiRun_snd nb mb rw re matrix n
    rw [hn] at h
    rw [show (decide ((0 : ℕ) = 1)) = false from rfl] at h
    rw [h]

/-- Witness for C4 at an even iteration count (n = 2). -/
theorem C4_buffer_discipline_witness :
    freedSlot (jacobiRun 1 1 zf zf mini 2) = true ∧
    (jacobiRun 1 1 zf zf mini 2).1 false =
      (jacobiRun 1 1 zf zf mini 2).1 ((jacobiRun 1 1 zf zf mini 2).2) :=
  ⟨(C4_buffer_discipline 1 1 zf zf mini 2).1,
   (C4_buffer_discipline 1 1 zf zf mini 2).2 rfl⟩

/-- C4 is false as stated: after one iteration (max_iter = 1) the surviving
buffer (the caller's matrix allocation, slot false) differs at the interior
cell from the final iterate (the om contents after the last swap): the
final iterate lives in the buffer that the source frees. -/
theorem C4_counterexample :
    (jacobiRun 1 1 zf zf mini 1).1 false (cellPos 1 0 0) ≠
      (jacobiRun 1 1 zf zf mini 1).1 ((jacobiRun 1 1 zf zf mini 1).2) (cellPos 1 0 0) := by
  have hL : (jacobiRun 1 1 zf zf mini 1).1 false (cellPos 1 0 0) = 0 := by
    rw [jacobiRun_one_om]
    rw [unpackEW_frame 1 1 zf zf mini _ (by decide)]
    norm_num [mini, cellPos]
  have e4 : unpackEW 1 1 zf zf mini (cellPos 1 0 0) = 0 := by
    rw [unpackEW_frame 1 1 zf zf mini _ (by decide)]
    norm_num [mini, cellPos]
  have e5 : unpackEW 1 1 zf zf mini (cellPos 1 0 0 + 1) = 0 := by
    have hr1 : List.range 1 = [0] := rfl
    norm_num [unpackEW, hr1, cellPos, Function.update_apply, zf]
  have e7 : unpackEW 1 1 zf zf mini (cellPos 1 0 0 + (1 + 2)) = 10 := by
    rw [unpackEW_frame 1 1 zf zf mini _ (by decide)]
    norm_num [mini, cellPos]
  have hR : (jacobiRun 1 1 zf zf mini 1).1 true (cellPos 1 0 0) = sorW 1 / 4 * 10 := by
    rw [jacobiRun_one_nm]
    rw [SOR1_apply_interior (fun _ => 0) (unpackEW 1 1 zf zf mini) 1 1 0 0
        (by decide) (by decide)]
    simp only [sorVal, Nat.zero_mul, Nat.zero_add, sorSteps]
    rw [e4, e5, e7]
    norm_num
  rw [jacobiRun_one_snd, hL, hR]
  have h := sorW_pos 1
  intro he
  linarith

/-- C5 (amended): jacobi_cpu contains no validation of the topology at all:
the setup phase always succeeds (there is no configuration-error path in
lines 154-170), and on the ill-formed topology size = 3, P = 2 (where
size % P ≠ 0) communication is still attempted — rank 0 posts receives from
its south and east neighbors. -/
theorem C5_no_validation :
    (∀ size P rank : ℕ, (jacobiSetup size P rank).isOk = true) ∧
    ((3 : ℕ) % 2 ≠ 0 ∧ postedRecvs 3 2 0 = [Dir.south, Dir.east]) :=
  ⟨fun _ _ _ => rfl, by decide⟩

/-- C5 is false as stated: with size = 3 and P = 2 (so size % P ≠ 0) the
setup raises no configuration error and receives are posted anyway. -/
theorem C5_counterexample :
    (3 : ℕ) % 2 ≠ 0 ∧ (jacobiSetup 3 2 0).isOk = true ∧ postedRecvs 3 2 0 ≠ [] := by
  refine ⟨by decide, rfl, by decide⟩

theorem loopCount_eq_max (eps : ℝ) (it m : ℤ) :
    loopCount eps it m = max (it + 1) m := by
  have H : ∀ n : ℕ, ∀ it : ℤ, (m - it).toNat ≤ n →
      loopCount eps it m = max (it + 1) m := by
    intro n
    induction n with
    | zero =>
        intro it hle
        rw [loopCount]
        have hnot : ¬ (it + 1 < m) := by omega
        rw [if_neg hnot, max_eq_left (by omega)]
    | succ n ih =>
        intro it hle
        rw [loopCount]
        by_cases h : it + 1 < m
        · rw [if_pos h, ih (it + 1) (by omega), max_eq_right (by omega),
            max_eq_right (by omega)]
        · rw [if_neg h, max_eq_left (by omega)]
  exact H (m - it).toNat it le_rfl

/-- C6 (amended): the do-while loop of jacobi_cpu terminates solely on the
iteration cap — the epsilon threshold never ends the loop (the iteration
count does not depend on eps, the comparison being commented out) — but,
being a do-while, the body always executes at least once, so the function
returns max 1 max_iter; this equals the cap max_iter exactly when
max_iter ≥ 1. -/
theorem C6_loop_count (eps : ℝ) (m : ℤ) : loopCount eps 0 m = max 1 m := by
  have h := loopCount_eq_max eps 0 m
  simpa using h

/-- C6 is false as stated: called with max_iter = 0 the do-while still
executes one iteration and returns 1, not the cap 0. -/
theorem C6_counterexample : loopCount 0 0 0 = 1 ∧ (1 : ℤ) ≠ 0 := by
  constructor
  · rw [loopCount]; norm_num
  · norm_num

theorem loopRun_iter (norms : ℕ → ℝ) : ∀ n, (loopRun norms n).iter = n := by
  intro n
  induction n with
  | zero => rfl
  | succ n ih =>
      show (loopRun norms n).iter + 1 = n + 1
      rw [ih]

theorem loopRun_dn (norms : ℕ → ℝ) (n : ℕ) :
    (loopRun norms (n + 1)).dn = some (norms n) := by
  show some (norms (loopRun norms n).iter) = _
  rw [loopRun_iter]

/-- C10: on the first loop iteration the rank-0 diagnostic print evaluates
sqrt(diff_norm) before diff_norm has been assigned any value — the first
entry of the printed trace is the unassigned none — while every later
iteration's print reads the value that SOR1 (followed by the reduction)
assigned during the previous iteration. -/
theorem C10_first_print_unassigned (norms : ℕ → ℝ) (n : ℕ) (h : 0 < n) :
    (loopRun norms n).printed =
      none :: (List.range (n - 1)).map (fun k => some (norms k)) := by
  induction n with
  | zero => exact absurd h (lt_irrefl 0)
  | succ n ih =>
      rcases Nat.eq_zero_or_pos n with h0 | h0
      · subst h0
        rfl
      · show (loopRun norms n).printed ++ [(loopRun norms n).dn] = _
        rw [ih h0]
        obtain ⟨n', rfl⟩ : ∃ n', n = n' + 1 := ⟨n - 1, by omega⟩
        rw [loopRun_dn]
        simp [List.range_succ]

/-- Witness for C10 with two iterations of a concrete (all-zero) norm
history: the printed trace is [none, some 0]. -/
theorem C10_first_print_unassigned_witness :
    (loopRun zf 2).printed =
      none :: (List.range (2 - 1)).map (fun k => some (zf k)) :=
  C10_first_print_unassigned zf 2 (by decide)
